import Mathlib

/-!
# Verification of `cmd/helpers.go`

A shallow embedding of the configuration loader and the package-manager
resolver of `cmd/helpers.go`, followed by theorems about them.

Modelling conventions.

* A Go `map[string]V` is an association list `GoMap V`. The order of the list
  is the order in which a `range` loop visits the entries; Go leaves that
  order unspecified, and every theorem below quantifies over all lists, hence
  over every order. A lookup `m[k]` returns the first entry with key `k`
  (a Go map holds at most one).
* A Go `string` is a Lean `String`; the library functions of package
  `strings` that the source calls are written over the list of characters.
  The separator `/` and the placeholder `@repo_name` are ASCII, so on UTF-8
  text matching by character and matching by byte agree.
* The outside world (the host's search path, shell commands, HTTP, the TOML
  decoder, the GitHub tree API) is a record of functions, `world`; a call
  that ends in `log.Fatal` or in a run-time panic is `Except.error`.
-/

namespace Helpers

/-! ## Go maps -/

/-- A Go `map[string]V`, listed in iteration order. -/
abbrev GoMap (V : Type) := List (String × V)

/-- The comma-ok lookup `v, ok := m[k]`: `some v` when ok, else `none`. -/
def GoMap.get? {V : Type} (m : GoMap V) (k : String) : Option V :=
  match m with
  | [] => none
  | (k', v) :: rest => if k' = k then some v else GoMap.get? rest k

/-- The assignment `m[k] = v`: replaces the entry at `k`, or adds one. -/
def GoMap.set {V : Type} (m : GoMap V) (k : String) (v : V) : GoMap V :=
  match m with
  | [] => [(k, v)]
  | (k', v') :: rest => if k' = k then (k, v) :: rest else (k', v') :: GoMap.set rest k v

/-! ## Package manager -/

/-- The struct `pmCommands`. -/
structure pmCommands where
  name : String := ""
  installCmd : String := ""
  uninstallCmd : String := ""
  updateCmd : String := ""
  deriving DecidableEq, Repr

/-- The type `pkgs`: category, then package name, then attribute key. -/
abbrev pkgs := GoMap (GoMap (GoMap String))

/-- The struct `packageManager`. -/
structure packageManager where
  commands : pmCommands := {}
  packages : pkgs := []
  deriving DecidableEq, Repr

/-- The inner loop of `packageByName`: the first package of `group` whose
key is `name`. -/
def scanGroup (group : GoMap (GoMap String)) (name : String) : Option (GoMap String) :=
  match group with
  | [] => none
  | (pName, p) :: rest => if pName = name then some p else scanGroup rest name

/-- The method `packageByName`: scan every group, return the first package
named `name`, or the empty map. -/
def packageByName (packages : pkgs) (name : String) : GoMap String :=
  match packages with
  | [] => []
  | (_, group) :: rest =>
    match scanGroup group name with
    | some p => p
    | none => packageByName rest name

/-- The method `installCmd`. -/
def installCmd (pm : packageManager) (name : String) : String :=
  let pack := packageByName pm.packages name
  match pack.get? "install_command" with
  | some installCmd => installCmd
  | none =>
    match pack.get? pm.commands.name with
    | some systemPackageName => pm.commands.installCmd ++ " " ++ systemPackageName
    | none => ""

/-- The method `uninstallCmd`. -/
def uninstallCmd (pm : packageManager) (name : String) : String :=
  let pack := packageByName pm.packages name
  match pack.get? "uninstall_command" with
  | some installCmd => installCmd
  | none =>
    match pack.get? pm.commands.name with
    | some systemPackageName => pm.commands.uninstallCmd ++ " " ++ systemPackageName
    | none => ""

/-! ## Strings -/

/-- The predicate `unicode.IsSpace`, which `strings.TrimSpace` trims by: tab,
line feed, vertical tab, form feed, carriage return, space, U+0085, U+00A0,
U+1680, U+2000 to U+200A, U+2028, U+2029, U+202F, U+205F, U+3000. -/
def isSpace (c : Char) : Bool :=
  let n := c.toNat
  (9 ≤ n && n ≤ 13) || n = 32 || n = 133 || n = 160 || n = 5760 ||
    (8192 ≤ n && n ≤ 8202) || n = 8232 || n = 8233 || n = 8239 || n = 8287 || n = 12288

/-- The function `strings.TrimSpace`: drop leading and trailing white space. -/
def TrimSpace (s : String) : String :=
  String.mk ((s.toList.dropWhile isSpace).reverse.dropWhile isSpace).reverse

/-- The scan of `strings.Split` for a non-empty separator: `skip` characters
of a matched separator are still to be passed over, `cur` is the segment
being collected. Matches are taken left to right and do not overlap. -/
def splitAux (sep : List Char) : Nat → List Char → List Char → List (List Char)
  | _, cur, [] => [cur]
  | skip + 1, cur, _ :: cs => splitAux sep skip cur cs
  | 0, cur, c :: cs =>
    if sep.isPrefixOf (c :: cs) then cur :: splitAux sep (sep.length - 1) [] cs
    else splitAux sep 0 (cur ++ [c]) cs

/-- The function `strings.Split`: with an empty separator the string is cut
into its characters, otherwise it is cut at every match of the separator. -/
def Split (s sep : String) : List String :=
  if sep.toList = [] then s.toList.map String.singleton
  else (splitAux sep.toList 0 [] s.toList).map String.mk

/-- The scan of `strings.ReplaceAll` for a non-empty `old`: matches are taken
left to right and do not overlap; `skip` characters of a matched `old` are
still to be passed over. -/
def replaceAux (old new : List Char) : Nat → List Char → List Char
  | _, [] => []
  | skip + 1, _ :: cs => replaceAux old new skip cs
  | 0, c :: cs =>
    if old.isPrefixOf (c :: cs) then new ++ replaceAux old new (old.length - 1) cs
    else c :: replaceAux old new 0 cs

/-- The function `strings.ReplaceAll`: with an empty `old`, `new` is put
before every character and at the end. -/
def ReplaceAll (s old new : String) : String :=
  if old = new then s
  else if old.toList = [] then String.mk (new.toList ++ s.toList.flatMap (fun c => c :: new.toList))
  else String.mk (replaceAux old.toList new.toList 0 s.toList)

/-- An index expression `xs[i]` on a slice: a run-time panic when `i` is out
of range. The index is an `int`, so `len(xs)-2` can be negative. -/
def index {α : Type} (xs : List α) (i : Int) : Except String α :=
  if 0 ≤ i ∧ i < xs.length then
    match xs.get? i.toNat with
    | some x => .ok x
    | none => .error "index out of range"
  else .error "index out of range"

/-! ## Configuration -/

/-- The struct `Target`. -/
structure Target where
  Description : String := ""
  RepoPath : String := ""
  LocalPath : String := ""
  deriving DecidableEq, Repr

/-- The struct `targetClass`. -/
structure targetClass where
  Name : String := ""
  MacOSOnly : Bool := false
  Targets : List Target := []
  deriving DecidableEq, Repr

/-- The struct `Installer`. -/
structure Installer where
  HelpMessage : String := ""
  Description : String := ""
  Install : List (GoMap String) := []
  TmpInstall : List (GoMap String) := []
  deriving DecidableEq, Repr

/-- The struct `metadata`. -/
structure metadata where
  User : String := ""
  Repo : String := ""
  BaseURL : String := ""
  GitPaths : List String := []
  deriving DecidableEq, Repr

/-- The struct `config`. -/
structure config where
  TmpDir : String := ""
  InstallURL : String := ""
  HelpDescription : String := ""
  Sync : GoMap targetClass := []
  Installers : GoMap Installer := []
  Metadata : metadata := {}
  deriving DecidableEq, Repr

/-- Everything the program asks of its surroundings. `decodeConfig text c` is
`toml.Decode(text, &c)`: the decoder is handed the whole structure `c` and
returns it with the fields the document defines filled in. Every field of
`config` is exported and none is tagged `toml:"-"`, `Metadata` included, so
the decoder may fill any of them. `getTree` is the GitHub tree call, giving
the paths of the entries in order. -/
structure world where
  commandExists : String → Bool
  runCommand : String → Except String String
  download : String → Except String String
  decodeConfig : String → config → Except String config
  decodePackages : String → pkgs → Except String pkgs
  getTree : String → String → String → Except String (List String)

/-- The inner loop of `SyncTargets` over the targets of one group. -/
def syncGroup (targets : GoMap String) (ts : List Target) : GoMap String :=
  match ts with
  | [] => targets
  | t :: rest => syncGroup (targets.set t.RepoPath t.LocalPath) rest

/-- The outer loop of `SyncTargets` over the groups. -/
def syncGroups (targets : GoMap String) (groups : GoMap targetClass) : GoMap String :=
  match groups with
  | [] => targets
  | (_, s) :: rest => syncGroups (syncGroup targets s.Targets) rest

/-- The method `(c *config) SyncTargets`. Its loop ranges over `Config.Sync`,
the process-wide variable `Config`, which is the first argument here; the
receiver `c` is the second. -/
def SyncTargets (Config : config) (_c : config) : GoMap String :=
  syncGroups [] Config.Sync

/-- The function `remoteGitPaths`: the paths of the tree, appended in order. -/
def remoteGitPaths (w : world) (user repo branch : String) : Except String (List String) :=
  match w.getTree user repo branch with
  | .error e => .error e
  | .ok entries => .ok (entries.foldl (fun gitPaths entry => gitPaths ++ [entry]) [])

/-- The function `getConfig`. -/
def getConfig (w : world) : Except String config := do
  let c : config := {}
  let gitRemoteOriginURL ← w.runCommand "git config --get remote.origin.url"
  let splitURL := Split (TrimSpace gitRemoteOriginURL) "/"
  let user ← index splitURL ((splitURL.length : Int) - 2)
  let repo ← index splitURL ((splitURL.length : Int) - 1)
  let c := { c with Metadata := { c.Metadata with User := user, Repo := repo } }
  let branchOut ← w.runCommand "git rev-parse --abbrev-ref HEAD"
  let branch := TrimSpace branchOut
  let c := { c with Metadata := { c.Metadata with
    BaseURL := "https://raw.githubusercontent.com/" ++ c.Metadata.User ++ "/" ++
      c.Metadata.Repo ++ "/" ++ branch ++ "/" } }
  let configToml ← w.download (c.Metadata.BaseURL ++ "config.toml")
  let c ← w.decodeConfig configToml c
  let c := { c with TmpDir := ReplaceAll c.TmpDir "@repo_name" c.Metadata.Repo }
  let c := if c.InstallURL = "" then { c with InstallURL := c.Metadata.BaseURL ++ "install.sh" } else c
  let gitPaths ← remoteGitPaths w c.Metadata.User c.Metadata.Repo branch
  return { c with Metadata := { c.Metadata with GitPaths := gitPaths } }

/-- The probe of `getPackageManager`: the chain of `commandExists` tests. -/
def probeCommands (w : world) : pmCommands :=
  if w.commandExists "pacman" then
    { name := "pacman", installCmd := "pacman -S --no-confirm",
      uninstallCmd := "pacman -Rs --no-confirm", updateCmd := "pacman -Syu" }
  else if w.commandExists "dnf" then
    { name := "dnf", installCmd := "dnf install -y",
      uninstallCmd := "dnf remove -y", updateCmd := "dnf update" }
  else if w.commandExists "brew" then
    { name := "brew", installCmd := "brew install",
      uninstallCmd := "brew uninstall", updateCmd := "brew upgrade" }
  else if w.commandExists "apt" then
    { name := "apt", installCmd := "apt install -y",
      uninstallCmd := "apt remove -y", updateCmd := "apt update" }
  else {}

/-- The function `getPackageManager`; `Config` is the process-wide variable. -/
def getPackageManager (w : world) (Config : config) : Except String packageManager := do
  let pm : packageManager := { commands := probeCommands w }
  let tomlText ← w.download (Config.Metadata.BaseURL ++ "packages.toml")
  let packages ← w.decodePackages tomlText pm.packages
  return { pm with packages := packages }

/-! ## Definitions used to state the properties -/

/-- The categories of a catalog that define a package called `name`. -/
def definingCategories (packages : pkgs) (name : String) : GoMap (GoMap (GoMap String)) :=
  packages.filter (fun g => (g.2.get? name).isSome)

/-- The built-in command table as the specification lists it, one row per
manager, in probe-priority order. -/
def specCommandTable : List pmCommands :=
  [ { name := "pacman", installCmd := "pacman -S --no-confirm",
      uninstallCmd := "pacman -Rs --no-confirm", updateCmd := "pacman -Syu" },
    { name := "dnf", installCmd := "dnf install -y",
      uninstallCmd := "dnf remove -y", updateCmd := "dnf update" },
    { name := "brew", installCmd := "brew install",
      uninstallCmd := "brew uninstall", updateCmd := "brew upgrade" },
    { name := "apt", installCmd := "apt install -y",
      uninstallCmd := "apt remove -y", updateCmd := "apt update" } ]

/-- The selection as the specification words it: the row of the first manager
of the table whose binary is present, if there is one. -/
def specSelectProfile (present : String → Bool) : Option pmCommands :=
  specCommandTable.find? (fun row => present row.name)

/-- The zero value of `pmCommands`: four empty strings. -/
def zeroCommands : pmCommands :=
  { name := "", installCmd := "", uninstallCmd := "", updateCmd := "" }

/-- The structure that `getConfig` hands to the decoder: zero-valued but for
the user, the repository and the base URL. -/
def preDecode (user repo branch : String) : config :=
  { Metadata :=
      { User := user
        Repo := repo
        BaseURL :=
          "https://raw.githubusercontent.com/" ++ user ++ "/" ++ repo ++ "/" ++ branch ++ "/" } }

/-- What `getConfig` makes of the decoded structure `d` and the tree paths:
the two post-decode transforms and the assignment of `GitPaths`. -/
def postDecode (d : config) (paths : List String) : config :=
  { TmpDir := ReplaceAll d.TmpDir "@repo_name" d.Metadata.Repo,
    InstallURL := if d.InstallURL = "" then d.Metadata.BaseURL ++ "install.sh" else d.InstallURL,
    HelpDescription := d.HelpDescription, Sync := d.Sync, Installers := d.Installers,
    Metadata := { d.Metadata with GitPaths := paths } }

/-- The function `strings.Contains`: some tail of `s` starts with `substr`. -/
def Contains (s substr : String) : Bool :=
  s.toList.tails.any (fun t => substr.toList.isPrefixOf t)

/-- Every `@` of `s` begins an occurrence of the placeholder `@repo_name`. -/
def atStartsPlaceholder (s : String) : Bool :=
  s.toList.tails.all (fun t => t.head? != some '@' || "@repo_name".toList.isPrefixOf t)

/-- The targets of all sync groups, group after group. -/
def allTargets (groups : GoMap targetClass) : List Target :=
  groups.flatMap (fun g => g.2.Targets)

/-! ## Example hosts -/

/-- A host with none of the four managers; the remote is `u/name`, the
manifest sets `tmp_dir`, and the catalog has a package whose only attribute
sits at the empty key. -/
def hostWithout : world where
  commandExists := fun _ => false
  runCommand := fun cmd =>
    if cmd = "git config --get remote.origin.url" then .ok "https://github.com/u/name\n"
    else .ok "main\n"
  download := fun _ => .ok ""
  decodeConfig := fun _ c => .ok { c with TmpDir := "/tmp/@repo_@repo_name" }
  decodePackages := fun _ _ => .ok [("cli", [("pkg", [("", "foo")])])]
  getTree := fun _ _ _ => .ok ["install.sh"]

/-- A host with none of the four managers and an ordinary catalog. -/
def hostBare : world where
  commandExists := fun _ => false
  runCommand := fun cmd =>
    if cmd = "git config --get remote.origin.url" then .ok "https://github.com/u/dots\n"
    else .ok "main\n"
  download := fun _ => .ok ""
  decodeConfig := fun _ c => .ok { c with TmpDir := "/tmp/@repo_name" }
  decodePackages := fun _ _ => .ok [("cli", [("pkg", [("apt", "foo")])])]
  getTree := fun _ _ _ => .ok ["install.sh"]

/-- A host like `hostBare` whose manifest has a table `[Metadata]` with the
key `User`: the decoder fills that field of the structure it is handed. -/
def hostOverride : world where
  commandExists := fun _ => false
  runCommand := fun cmd =>
    if cmd = "git config --get remote.origin.url" then .ok "https://github.com/u/dots\n"
    else .ok "main\n"
  download := fun _ => .ok ""
  decodeConfig := fun _ c => .ok { c with Metadata := { c.Metadata with User := "mallory" } }
  decodePackages := fun _ _ => .ok []
  getTree := fun _ _ _ => .ok ["install.sh"]

/-- A host whose remote URL has no slash. -/
def hostNoSlash : world where
  commandExists := fun _ => false
  runCommand := fun cmd =>
    if cmd = "git config --get remote.origin.url" then .ok "dots\n"
    else .ok "main\n"
  download := fun _ => .ok ""
  decodeConfig := fun _ c => .ok c
  decodePackages := fun _ _ => .ok []
  getTree := fun _ _ _ => .ok []

/-- A host like `hostBare` whose manifest sets `custom_install_url`. -/
def hostCustom : world where
  commandExists := fun _ => false
  runCommand := fun cmd =>
    if cmd = "git config --get remote.origin.url" then .ok "https://github.com/u/dots\n"
    else .ok "main\n"
  download := fun _ => .ok ""
  decodeConfig := fun _ c => .ok { c with InstallURL := "https://example.com/setup.sh" }
  decodePackages := fun _ _ => .ok []
  getTree := fun _ _ _ => .ok ["install.sh"]

/-- A host whose decoder fills `Metadata` for a manifest with a `[Metadata]`
table and leaves it alone for any other; the manifest served has none. -/
def hostMixed : world where
  commandExists := fun _ => false
  runCommand := fun cmd =>
    if cmd = "git config --get remote.origin.url" then .ok "https://github.com/u/dots\n"
    else .ok "main\n"
  download := fun _ => .ok "tmp_dir = \"/tmp/@repo_name\""
  decodeConfig := fun text c =>
    if text = "[Metadata]\nUser = \"mallory\"" then
      .ok { c with Metadata := { c.Metadata with User := "mallory" } }
    else .ok { c with TmpDir := "/tmp/@repo_name" }
  decodePackages := fun _ _ => .ok []
  getTree := fun _ _ _ => .ok ["install.sh"]

/-- A host whose remote is an ssh URL. -/
def hostSsh : world where
  commandExists := fun _ => false
  runCommand := fun cmd =>
    if cmd = "git config --get remote.origin.url" then .ok "git@github.com:u/dots.git\n"
    else .ok "main\n"
  download := fun _ => .ok ""
  decodeConfig := fun _ c => .ok c
  decodePackages := fun _ _ => .ok []
  getTree := fun _ _ _ => .ok []

/-- A configuration with two sync groups of two targets each, the four
repository paths distinct. -/
def twoByTwo : config :=
  { Sync :=
      [("shell",
        { Name := "shell"
          Targets :=
            [{ RepoPath := "zshrc", LocalPath := "~/.zshrc" },
             { RepoPath := "bashrc", LocalPath := "~/.bashrc" }] }),
       ("editor",
        { Name := "editor"
          Targets :=
            [{ RepoPath := "vimrc", LocalPath := "~/.vimrc" },
             { RepoPath := "init.lua", LocalPath := "~/.config/nvim/init.lua" }] })] }

/-! ## Lemmas on the package lookup -/

theorem scanGroup_eq_get? (group : GoMap (GoMap String)) (name : String) :
    scanGroup group name = group.get? name := by
  induction group with
  | nil => rfl
  | cons g rest ih =>
    obtain ⟨k, p⟩ := g
    simp only [scanGroup, GoMap.get?, ih]

theorem packageByName_eq_head (packages : pkgs) (name : String) :
    packageByName packages name =
      match definingCategories packages name with
      | [] => []
      | g :: _ => (g.2.get? name).getD [] := by
  induction packages with
  | nil => rfl
  | cons g rest ih =>
    obtain ⟨cat, group⟩ := g
    cases h : group.get? name with
    | none =>
      simp only [packageByName, scanGroup_eq_get?, h, definingCategories, List.filter_cons,
        Option.isSome_none, Bool.false_eq_true, if_false]
      exact ih
    | some p =>
      simp [packageByName, scanGroup_eq_get?, h, definingCategories, List.filter_cons]

theorem packageByName_absent (packages : pkgs) (name : String)
    (h : ∀ g ∈ packages, g.2.get? name = none) : packageByName packages name = [] := by
  have hd : definingCategories packages name = [] := by
    simp only [definingCategories, List.filter_eq_nil_iff]
    intro g hg
    simp [h g hg]
  rw [packageByName_eq_head, hd]

/-! ## Theorems on the package lookup -/

/-- C1: when `name` is defined in exactly one category, with an attribute
mapping that has no `install_command` key and has `id` at the key equal to the
profile's name, `installCmd name` is the profile's install command, one space,
and `id`. -/
theorem installCmd_manager_identifier (pm : packageManager) (name id cat : String)
    (group : GoMap (GoMap String)) (pack : GoMap String)
    (hone : definingCategories pm.packages name = [(cat, group)])
    (hpack : group.get? name = some pack)
    (hno : pack.get? "install_command" = none)
    (hid : pack.get? pm.commands.name = some id) :
    installCmd pm name = pm.commands.installCmd ++ " " ++ id := by
  have hp : packageByName pm.packages name = pack := by
    rw [packageByName_eq_head, hone]
    simp [hpack]
  simp only [installCmd, hp, hno, hid]

theorem installCmd_manager_identifier_witness :
    installCmd
        { commands := { name := "apt", installCmd := "apt install -y" },
          packages := [("cli", [("foo", [("apt", "foo")])])] } "foo" =
      "apt install -y foo" :=
  installCmd_manager_identifier
    { commands := { name := "apt", installCmd := "apt install -y" },
      packages := [("cli", [("foo", [("apt", "foo")])])] }
    "foo" "foo" "cli" [("foo", [("apt", "foo")])] [("apt", "foo")]
    (by decide) (by decide) (by decide) (by decide)

/-- C2: when the mapping that `packageByName name` returns has an
`install_command` key, `installCmd name` is that key's value, whether or not
the mapping also has a key equal to the profile's name; whenever the derived
command differs from the override, it is not what is returned. -/
theorem installCmd_override (pm : packageManager) (name v : String)
    (hov : (packageByName pm.packages name).get? "install_command" = some v) :
    installCmd pm name = v ∧
      ∀ id, (packageByName pm.packages name).get? pm.commands.name = some id →
        v ≠ pm.commands.installCmd ++ " " ++ id →
        installCmd pm name ≠ pm.commands.installCmd ++ " " ++ id := by
  have h : installCmd pm name = v := by simp only [installCmd, hov]
  exact ⟨h, fun id _ hne => h ▸ hne⟩

theorem installCmd_override_witness :
    installCmd
        { commands := { name := "apt", installCmd := "apt install -y" },
          packages := [("cli", [("foo", [("apt", "foo"), ("install_command", "make foo")])])] }
        "foo" = "make foo" :=
  (installCmd_override
    { commands := { name := "apt", installCmd := "apt install -y" },
      packages := [("cli", [("foo", [("apt", "foo"), ("install_command", "make foo")])])] }
    "foo" "make foo" (by decide)).1

/-- C3: `uninstallCmd name` is the value of the `uninstall_command` key of
`packageByName name` when present; otherwise the profile's uninstall command,
one space, and the value at the key equal to the profile's name when present;
otherwise the empty string. It depends on the package only through these two
keys, so not through an `install_command` key. -/
theorem uninstallCmd_resolution (pm : packageManager) (name : String) :
    (∀ v, (packageByName pm.packages name).get? "uninstall_command" = some v →
        uninstallCmd pm name = v) ∧
    ((packageByName pm.packages name).get? "uninstall_command" = none →
      ∀ id, (packageByName pm.packages name).get? pm.commands.name = some id →
        uninstallCmd pm name = pm.commands.uninstallCmd ++ " " ++ id) ∧
    ((packageByName pm.packages name).get? "uninstall_command" = none →
      (packageByName pm.packages name).get? pm.commands.name = none →
        uninstallCmd pm name = "") ∧
    (∀ packages : pkgs,
      (packageByName packages name).get? "uninstall_command" =
          (packageByName pm.packages name).get? "uninstall_command" →
      (packageByName packages name).get? pm.commands.name =
          (packageByName pm.packages name).get? pm.commands.name →
      uninstallCmd { pm with packages := packages } name = uninstallCmd pm name) := by
  refine ⟨?_, ?_, ?_, ?_⟩
  · intro v hv
    simp only [uninstallCmd, hv]
  · intro hno id hid
    simp only [uninstallCmd, hno, hid]
  · intro hno hid
    simp only [uninstallCmd, hno, hid]
  · intro packages h1 h2
    simp only [uninstallCmd, h1, h2]

/-- C5: for a name that is not a package key in any category,
`packageByName` returns the empty mapping and both `installCmd` and
`uninstallCmd` return the empty string. -/
theorem absent_package (pm : packageManager) (name : String)
    (habs : ∀ g ∈ pm.packages, g.2.get? name = none) :
    packageByName pm.packages name = [] ∧ installCmd pm name = "" ∧
      uninstallCmd pm name = "" := by
  have hp := packageByName_absent pm.packages name habs
  refine ⟨hp, ?_, ?_⟩
  · simp only [installCmd, hp, GoMap.get?]
  · simp only [uninstallCmd, hp, GoMap.get?]

theorem absent_package_witness :
    packageByName [("cli", [("foo", [("apt", "foo")])])] "bar" = [] ∧
      installCmd { commands := { name := "apt", installCmd := "apt install -y" },
                   packages := [("cli", [("foo", [("apt", "foo")])])] } "bar" = "" ∧
      uninstallCmd { commands := { name := "apt", installCmd := "apt install -y" },
                     packages := [("cli", [("foo", [("apt", "foo")])])] } "bar" = "" :=
  absent_package
    { commands := { name := "apt", installCmd := "apt install -y" },
      packages := [("cli", [("foo", [("apt", "foo")])])] } "bar" (by decide)

/-! ## Theorems on the package-manager probe -/

theorem probeCommands_eq_spec (w : world) :
    probeCommands w = (specSelectProfile w.commandExists).getD zeroCommands := by
  unfold probeCommands specSelectProfile specCommandTable zeroCommands
  cases h1 : w.commandExists "pacman" <;> cases h2 : w.commandExists "dnf" <;>
    cases h3 : w.commandExists "brew" <;> cases h4 : w.commandExists "apt" <;>
    simp [List.find?, h1, h2, h3, h4]

theorem getPackageManager_ok (w : world) (Config : config) (tomlText : String)
    (packages : pkgs)
    (hd : w.download (Config.Metadata.BaseURL ++ "packages.toml") = .ok tomlText)
    (hp : w.decodePackages tomlText [] = .ok packages) :
    getPackageManager w Config = .ok { commands := probeCommands w, packages := packages } := by
  simp only [getPackageManager, bind, Except.bind, hd, hp]
  rfl

theorem getPackageManager_commands (w : world) (Config : config) (pm : packageManager)
    (h : getPackageManager w Config = .ok pm) : pm.commands = probeCommands w := by
  simp only [getPackageManager, bind, Except.bind] at h
  cases hd : w.download (Config.Metadata.BaseURL ++ "packages.toml") with
  | error e => simp [hd] at h
  | ok tomlText =>
    simp only [hd] at h
    cases hp : w.decodePackages tomlText [] with
    | error e => simp [hp] at h
    | ok packages =>
      simp only [hp] at h
      cases h
      rfl

/-- C4: whatever the probe finds, `getPackageManager` selects the row of the
first manager in the order pacman, dnf, brew, apt whose binary exists, with
exactly the four strings of the built-in table; it returns as soon as the
catalog is fetched and decoded; with pacman and apt both present the selected
name is `pacman`. -/
theorem getPackageManager_first_match (w : world) (Config : config) :
    (∀ tomlText packages,
      w.download (Config.Metadata.BaseURL ++ "packages.toml") = .ok tomlText →
      w.decodePackages tomlText [] = .ok packages →
      getPackageManager w Config =
        .ok { commands := (specSelectProfile w.commandExists).getD zeroCommands,
              packages := packages }) ∧
    (∀ pm, getPackageManager w Config = .ok pm →
      ∀ row, specSelectProfile w.commandExists = some row → pm.commands = row) ∧
    (∀ pm, getPackageManager w Config = .ok pm →
      w.commandExists "pacman" = true → w.commandExists "apt" = true →
      pm.commands.name = "pacman") := by
  refine ⟨?_, ?_, ?_⟩
  · intro tomlText packages hd hp
    rw [getPackageManager_ok w Config tomlText packages hd hp, probeCommands_eq_spec]
  · intro pm h row hrow
    rw [getPackageManager_commands w Config pm h, probeCommands_eq_spec, hrow]
    rfl
  · intro pm h hpac _
    rw [getPackageManager_commands w Config pm h]
    simp [probeCommands, hpac]

/-- C9, as stated, fails: on a host with none of the four managers the profile
is zero-valued, and a package whose mapping has no `install_command` and no
`uninstall_command` key but an entry at the empty key gets the commands
`" foo"`, not the empty string. -/
theorem no_manager_empty_key_counterexample :
    hostWithout.commandExists "pacman" = false ∧ hostWithout.commandExists "dnf" = false ∧
    hostWithout.commandExists "brew" = false ∧ hostWithout.commandExists "apt" = false ∧
    getPackageManager hostWithout {} =
      .ok { commands := zeroCommands, packages := [("cli", [("pkg", [("", "foo")])])] } ∧
    (packageByName [("cli", [("pkg", [("", "foo")])])] "pkg").get? "install_command" = none ∧
    (packageByName [("cli", [("pkg", [("", "foo")])])] "pkg").get? "uninstall_command" = none ∧
    installCmd { commands := zeroCommands, packages := [("cli", [("pkg", [("", "foo")])])] }
      "pkg" = " foo" ∧
    uninstallCmd { commands := zeroCommands, packages := [("cli", [("pkg", [("", "foo")])])] }
      "pkg" = " foo" := by
  refine ⟨rfl, rfl, rfl, rfl, rfl, ?_, ?_, ?_, ?_⟩ <;> decide

/-- C9, amended: with none of the four binaries present the probe leaves the
profile zero-valued and `getPackageManager` returns it once the catalog is
fetched and decoded; then for every package whose mapping has no entry at the
empty key and no `install_command` (resp. `uninstall_command`) key,
`installCmd` (resp. `uninstallCmd`) returns the empty string. -/
theorem no_manager_empty_commands (w : world) (Config : config)
    (hpacman : w.commandExists "pacman" = false) (hdnf : w.commandExists "dnf" = false)
    (hbrew : w.commandExists "brew" = false) (hapt : w.commandExists "apt" = false) :
    (∀ tomlText packages,
      w.download (Config.Metadata.BaseURL ++ "packages.toml") = .ok tomlText →
      w.decodePackages tomlText [] = .ok packages →
      getPackageManager w Config = .ok { commands := zeroCommands, packages := packages }) ∧
    (∀ pm, getPackageManager w Config = .ok pm →
      pm.commands = zeroCommands ∧
      ∀ name, (packageByName pm.packages name).get? "" = none →
        ((packageByName pm.packages name).get? "install_command" = none →
          installCmd pm name = "") ∧
        ((packageByName pm.packages name).get? "uninstall_command" = none →
          uninstallCmd pm name = "")) := by
  have hz : probeCommands w = zeroCommands := by
    simp [probeCommands, hpacman, hdnf, hbrew, hapt, zeroCommands]
  refine ⟨?_, ?_⟩
  · intro tomlText packages hd hp
    rw [getPackageManager_ok w Config tomlText packages hd hp, hz]
  · intro pm h
    have hc : pm.commands = zeroCommands := by
      rw [getPackageManager_commands w Config pm h, hz]
    refine ⟨hc, ?_⟩
    intro name hempty
    have hn : pm.commands.name = "" := by rw [hc]; rfl
    constructor
    · intro hno
      simp only [installCmd, hno, hn, hempty]
    · intro hno
      simp only [uninstallCmd, hno, hn, hempty]

theorem no_manager_empty_commands_witness :
    getPackageManager hostBare {} =
        .ok { commands := zeroCommands, packages := [("cli", [("pkg", [("apt", "foo")])])] } ∧
      installCmd { commands := zeroCommands, packages := [("cli", [("pkg", [("apt", "foo")])])] }
        "pkg" = "" :=
  ⟨(no_manager_empty_commands hostBare {} rfl rfl rfl rfl).1 "" _ rfl rfl,
   (((no_manager_empty_commands hostBare {} rfl rfl rfl rfl).2 _ rfl).2 "pkg"
      (by decide)).1 (by decide)⟩

/-! ## Lemmas on the configuration loader -/

theorem foldl_append_singleton (xs acc : List String) :
    xs.foldl (fun gitPaths entry => gitPaths ++ [entry]) acc = acc ++ xs := by
  induction xs generalizing acc with
  | nil => simp
  | cons x rest ih => simp [List.foldl, ih]

theorem getConfig_inv (w : world) (c : config) (h : getConfig w = .ok c) :
    ∃ url branchOut user repo text d paths,
      w.runCommand "git config --get remote.origin.url" = .ok url ∧
      index (Split (TrimSpace url) "/") (((Split (TrimSpace url) "/").length : Int) - 2) = .ok user ∧
      index (Split (TrimSpace url) "/") (((Split (TrimSpace url) "/").length : Int) - 1) = .ok repo ∧
      w.runCommand "git rev-parse --abbrev-ref HEAD" = .ok branchOut ∧
      w.download ((preDecode user repo (TrimSpace branchOut)).Metadata.BaseURL ++ "config.toml") = .ok text ∧
      w.decodeConfig text (preDecode user repo (TrimSpace branchOut)) = .ok d ∧
      w.getTree d.Metadata.User d.Metadata.Repo (TrimSpace branchOut) = .ok paths ∧
      c = postDecode d paths := by
  simp only [getConfig, bind, Except.bind] at h
  cases h1 : w.runCommand "git config --get remote.origin.url" with
  | error e => simp [h1] at h
  | ok url =>
    simp only [h1] at h
    cases h2 : index (Split (TrimSpace url) "/") (((Split (TrimSpace url) "/").length : Int) - 2) with
    | error e => simp [h2] at h
    | ok user =>
      simp only [h2] at h
      cases h3 : index (Split (TrimSpace url) "/") (((Split (TrimSpace url) "/").length : Int) - 1) with
      | error e => simp [h3] at h
      | ok repo =>
        simp only [h3] at h
        cases h4 : w.runCommand "git rev-parse --abbrev-ref HEAD" with
        | error e => simp [h4] at h
        | ok branchOut =>
          simp only [h4] at h
          cases h5 : w.download ("https://raw.githubusercontent.com/" ++ user ++ "/" ++ repo ++ "/" ++
              TrimSpace branchOut ++ "/" ++ "config.toml") with
          | error e => simp [h5] at h
          | ok text =>
            simp only [h5] at h
            cases h6 : w.decodeConfig text (preDecode user repo (TrimSpace branchOut)) with
            | error e =>
              simp only [preDecode] at h6
              simp [h6] at h
            | ok d =>
              have h6c := h6
              simp only [preDecode] at h6
              simp only [h6] at h
              have hU : ∀ x y : config, (if d.InstallURL = "" then x else y).Metadata =
                  if d.InstallURL = "" then x.Metadata else y.Metadata := by
                intro x y; split <;> rfl
              simp only [hU, ite_self] at h
              simp only [remoteGitPaths] at h
              cases h7 : w.getTree d.Metadata.User d.Metadata.Repo (TrimSpace branchOut) with
              | error e => simp [h7] at h
              | ok paths =>
                simp only [h7, foldl_append_singleton, List.nil_append] at h
                refine ⟨url, branchOut, user, repo, text, d, paths, rfl, h2, h3, rfl, h5, h6c, h7, ?_⟩
                have h8 : Except.ok _ = Except.ok c := h
                injection h8 with h8
                rw [← h8]
                simp only [postDecode]
                split <;> rfl

theorem getConfig_ok (w : world) (url branchOut user repo text : String) (d : config)
    (paths : List String)
    (h1 : w.runCommand "git config --get remote.origin.url" = .ok url)
    (h2 : index (Split (TrimSpace url) "/") (((Split (TrimSpace url) "/").length : Int) - 2) = .ok user)
    (h3 : index (Split (TrimSpace url) "/") (((Split (TrimSpace url) "/").length : Int) - 1) = .ok repo)
    (h4 : w.runCommand "git rev-parse --abbrev-ref HEAD" = .ok branchOut)
    (h5 : w.download ((preDecode user repo (TrimSpace branchOut)).Metadata.BaseURL ++ "config.toml") = .ok text)
    (h6 : w.decodeConfig text (preDecode user repo (TrimSpace branchOut)) = .ok d)
    (h7 : w.getTree d.Metadata.User d.Metadata.Repo (TrimSpace branchOut) = .ok paths) :
    getConfig w = .ok (postDecode d paths) := by
  simp only [preDecode] at h5 h6
  have hU : ∀ x y : config, (if d.InstallURL = "" then x else y).Metadata =
      if d.InstallURL = "" then x.Metadata else y.Metadata := by
    intro x y; split <;> rfl
  simp only [getConfig, bind, Except.bind, h1, h2, h3, h4, h5, h6, hU, ite_self, remoteGitPaths,
    h7, foldl_append_singleton, List.nil_append, postDecode]
  split <;> rfl

theorem index_ok {α : Type} (xs : List α) (i : Int) (x : α) (h : index xs i = .ok x) :
    0 ≤ i ∧ i < xs.length ∧ xs.get? i.toNat = some x := by
  unfold index at h
  split at h
  · rename_i hi
    refine ⟨hi.1, hi.2, ?_⟩
    split at h
    · rename_i y hy
      cases h
      exact hy
    · cases h
  · cases h

theorem index_of_lt {α : Type} (xs : List α) (n : Nat) (h : n < xs.length) :
    ∃ x, index xs (n : Int) = .ok x ∧ xs.get? n = some x := by
  refine ⟨xs.get ⟨n, h⟩, ?_, List.get?_eq_get h⟩
  unfold index
  have hc : (0 : Int) ≤ (n : Int) ∧ (n : Int) < (xs.length : Int) := ⟨by omega, by omega⟩
  rw [if_pos hc]
  simp only [Int.toNat_ofNat, List.get?_eq_get h]

theorem index_of_get? {α : Type} (xs : List α) (n : Nat) (x : α) (h : xs.get? n = some x) :
    index xs (n : Int) = .ok x := by
  have hlt : n < xs.length := by
    by_contra hge
    rw [List.get?_eq_none.mpr (by omega)] at h
    cases h
  unfold index
  have hc : (0 : Int) ≤ (n : Int) ∧ (n : Int) < (xs.length : Int) := ⟨by omega, by omega⟩
  rw [if_pos hc]
  simp only [Int.toNat_ofNat, h]

theorem index_error {α : Type} (xs : List α) (i : Int) (h : i < 0) :
    index xs i = .error "index out of range" := by
  unfold index
  rw [if_neg]
  omega

theorem append_install_ne_empty (s : String) : s ++ "install.sh" ≠ "" := by
  intro h
  have := congrArg String.length h
  simp only [String.length_append] at this
  have h10 : "install.sh".length = 10 := by decide
  have h0 : "".length = 0 := by decide
  omega

theorem splitAux_ne_nil (sep : List Char) (s : List Char) :
    ∀ (skip : Nat) (cur : List Char), splitAux sep skip cur s ≠ [] := by
  induction s with
  | nil => intro skip cur; simp [splitAux]
  | cons c cs ih =>
    intro skip cur
    cases skip with
    | zero =>
      simp only [splitAux]
      split
      · simp
      · exact ih 0 _
    | succ k =>
      simp only [splitAux]
      exact ih k cur

theorem Split_slash_length_pos (s : String) : 1 ≤ (Split s "/").length := by
  have h : Split s "/" = (splitAux "/".toList 0 [] s.toList).map String.mk := by
    simp [Split]
  rw [h, List.length_map]
  have := splitAux_ne_nil "/".toList s.toList 0 []
  exact List.length_pos.mpr this

theorem replaceAux_no_at (new : List Char) (hnew : '@' ∉ new) (s : List Char) :
    ∀ k : Nat, (∀ c ∈ s.take k, c ≠ '@') →
      (∀ t, t <:+ s.drop k → t.head? = some '@' → "@repo_name".toList <+: t) →
      '@' ∉ replaceAux "@repo_name".toList new k s := by
  induction s with
  | nil => intro k _ _; simp [replaceAux]
  | cons c cs ih =>
    intro k htake hdrop
    cases k with
    | succ j =>
      simp only [replaceAux]
      apply ih j
      · intro x hx
        exact htake x (by simp [List.take_succ_cons, hx])
      · simpa using hdrop
    | zero =>
      simp only [replaceAux]
      have hsuf : ∀ t, t <:+ cs → t <:+ c :: cs := fun t ht => ht.trans (List.suffix_cons c cs)
      split
      · rename_i hp
        rw [List.isPrefixOf_iff_prefix] at hp
        obtain ⟨r, hr⟩ := hp
        have hr' : '@' :: ("repo_name".toList ++ r) = c :: cs := hr
        injection hr' with hc hcs
        subst hcs
        intro hmem
        rcases List.mem_append.mp hmem with hm | hm
        · exact hnew hm
        · refine ih 9 ?_ ?_ hm
          · intro x hx
            have hx' : x ∈ "repo_name".toList := by
              have : List.take 9 ("repo_name".toList ++ r) = "repo_name".toList := by
                rw [List.take_append_of_le_length (by decide)]
                rfl
              rw [this] at hx
              exact hx
            intro hxe
            subst hxe
            revert hx'
            decide
          · intro t ht
            apply hdrop t
            have : List.drop 9 ("repo_name".toList ++ r) = r := by
              rw [List.drop_append_of_le_length (by decide)]
              rfl
            rw [this] at ht
            exact ht.trans ((List.suffix_append _ r).trans (List.suffix_cons c _))
      · rename_i hp
        have hc : c ≠ '@' := by
          intro hce
          apply hp
          rw [List.isPrefixOf_iff_prefix]
          exact hdrop (c :: cs) (List.suffix_refl _) (by simp [hce])
        intro hmem
        rcases List.mem_cons.mp hmem with hm | hm
        · exact hc hm.symm
        · exact ih 0 (by simp) (fun t ht => hdrop t (hsuf t ht)) hm

theorem Contains_false_of_no_at (s : String) (h : '@' ∉ s.toList) :
    Contains s "@repo_name" = false := by
  rw [Bool.eq_false_iff]
  intro hc
  simp only [Contains, List.any_eq_true, List.mem_tails] at hc
  obtain ⟨t, ht, hp⟩ := hc
  rw [List.isPrefixOf_iff_prefix] at hp
  apply h
  have h1 : '@' ∈ "@repo_name".toList := by decide
  exact ht.subset (hp.subset h1)

theorem ReplaceAll_no_placeholder (s repo : String) (hrepo : '@' ∉ repo.toList)
    (hs : atStartsPlaceholder s = true) :
    Contains (ReplaceAll s "@repo_name" repo) "@repo_name" = false := by
  apply Contains_false_of_no_at
  have hne : "@repo_name" ≠ repo := by
    intro h
    apply hrepo
    rw [← h]
    decide
  have hold : ¬ "@repo_name".toList = [] := by decide
  simp only [ReplaceAll, if_neg hne, if_neg hold]
  apply replaceAux_no_at repo.toList hrepo s.toList 0 (by simp)
  intro t ht hhead
  simp only [atStartsPlaceholder, List.all_eq_true, List.mem_tails] at hs
  have := hs t (by simpa using ht)
  simp only [hhead, bne_self_eq_false, Bool.false_or] at this
  exact List.isPrefixOf_iff_prefix.mp this

/-! ## Theorems on the configuration loader -/

/-- C8: `getConfig` returns as soon as its commands, the download, the decoding
and the tree call succeed, and whenever it returns, the `installURL` of the
configuration is non-empty: it is the decoded `custom_install_url` when that is
non-empty, and otherwise the configuration's `baseURL` followed by
`install.sh`. -/
theorem getConfig_installURL (w : world) :
    (∀ url branchOut user repo text d paths,
      w.runCommand "git config --get remote.origin.url" = .ok url →
      index (Split (TrimSpace url) "/") (((Split (TrimSpace url) "/").length : Int) - 2) =
        .ok user →
      index (Split (TrimSpace url) "/") (((Split (TrimSpace url) "/").length : Int) - 1) =
        .ok repo →
      w.runCommand "git rev-parse --abbrev-ref HEAD" = .ok branchOut →
      w.download ((preDecode user repo (TrimSpace branchOut)).Metadata.BaseURL ++
        "config.toml") = .ok text →
      w.decodeConfig text (preDecode user repo (TrimSpace branchOut)) = .ok d →
      w.getTree d.Metadata.User d.Metadata.Repo (TrimSpace branchOut) = .ok paths →
      ∃ c, getConfig w = .ok c ∧ c.InstallURL ≠ "" ∧
        (d.InstallURL ≠ "" → c.InstallURL = d.InstallURL) ∧
        (d.InstallURL = "" → c.InstallURL = c.Metadata.BaseURL ++ "install.sh")) ∧
    (∀ c, getConfig w = .ok c →
      c.InstallURL ≠ "" ∧
      ∃ user repo branch text d,
        w.download ((preDecode user repo branch).Metadata.BaseURL ++ "config.toml") = .ok text ∧
        w.decodeConfig text (preDecode user repo branch) = .ok d ∧
        (d.InstallURL ≠ "" → c.InstallURL = d.InstallURL) ∧
        (d.InstallURL = "" → c.InstallURL = c.Metadata.BaseURL ++ "install.sh")) := by
  have key : ∀ (d : config) (paths : List String),
      (postDecode d paths).InstallURL ≠ "" ∧
      (d.InstallURL ≠ "" → (postDecode d paths).InstallURL = d.InstallURL) ∧
      (d.InstallURL = "" →
        (postDecode d paths).InstallURL = (postDecode d paths).Metadata.BaseURL ++ "install.sh") := by
    intro d paths
    refine ⟨?_, ?_, ?_⟩
    · simp only [postDecode]
      split
      · exact append_install_ne_empty _
      · assumption
    · intro hne
      simp only [postDecode, if_neg hne]
    · intro he
      simp only [postDecode, if_pos he]
  constructor
  · intro url branchOut user repo text d paths h1 h2 h3 h4 h5 h6 h7
    exact ⟨postDecode d paths,
      getConfig_ok w url branchOut user repo text d paths h1 h2 h3 h4 h5 h6 h7, key d paths⟩
  · intro c h
    obtain ⟨url, branchOut, user, repo, text, d, paths, -, -, -, -, h5, h6, -, hc⟩ :=
      getConfig_inv w c h
    subst hc
    exact ⟨(key d paths).1, user, repo, TrimSpace branchOut, text, d, h5, h6, (key d paths).2⟩

theorem getConfig_installURL_witness :
    (∃ c, getConfig hostBare = .ok c ∧ c.InstallURL ≠ "" ∧
      c.InstallURL = c.Metadata.BaseURL ++ "install.sh") ∧
    (∃ c, getConfig hostCustom = .ok c ∧ c.InstallURL ≠ "" ∧
      c.InstallURL = "https://example.com/setup.sh") := by
  obtain ⟨c, hc, hne, -, hdef⟩ :=
    (getConfig_installURL hostBare).1 "https://github.com/u/dots\n" "main\n" "u" "dots" ""
      { preDecode "u" "dots" "main" with TmpDir := "/tmp/@repo_name" } ["install.sh"]
      rfl rfl rfl rfl rfl rfl rfl
  obtain ⟨c', hc', hne', hcustom, -⟩ :=
    (getConfig_installURL hostCustom).1 "https://github.com/u/dots\n" "main\n" "u" "dots" ""
      { preDecode "u" "dots" "main" with InstallURL := "https://example.com/setup.sh" }
      ["install.sh"] rfl rfl rfl rfl rfl rfl rfl
  exact ⟨⟨c, hc, hne, hdef rfl⟩, ⟨c', hc', hne', hcustom (by decide)⟩⟩

/-- C10, as stated, fails: with the remote `https://github.com/u/dots` and a
manifest that has a `[Metadata]` table with the key `User`, `getConfig`
returns a configuration whose user is the manifest's, not the second-to-last
segment of the remote URL. -/
theorem getConfig_metadata_counterexample :
    hostOverride.runCommand "git config --get remote.origin.url" =
        .ok "https://github.com/u/dots\n" ∧
    Split (TrimSpace "https://github.com/u/dots\n") "/" =
        ["https:", "", "github.com", "u", "dots"] ∧
    getConfig hostOverride =
      .ok { InstallURL := "https://raw.githubusercontent.com/u/dots/main/install.sh"
            Metadata :=
              { User := "mallory"
                Repo := "dots"
                BaseURL := "https://raw.githubusercontent.com/u/dots/main/"
                GitPaths := ["install.sh"] } } := by
  refine ⟨rfl, ?_, ?_⟩
  · decide
  · rfl

/-- C10, amended: let the trimmed remote URL split on `/` into at least two
segments, `user` the second-to-last and `repo` the last, and let the decoding
of the downloaded manifest into the structure that `getConfig` hands over
leave the user, the repository and the base URL of `Metadata` as they were.
Then `getConfig` returns as soon as the download, the decoding and the tree
call succeed, and the configuration it returns has `user`, `repo` and the base
URL built from them and the trimmed branch. When the trimmed remote URL has
fewer than two segments, `getConfig` fails. -/
theorem getConfig_metadata (w : world) (url : String)
    (hurl : w.runCommand "git config --get remote.origin.url" = .ok url) :
    (2 ≤ (Split (TrimSpace url) "/").length →
      ∀ branchOut user repo text d paths,
        (Split (TrimSpace url) "/").get? ((Split (TrimSpace url) "/").length - 2) = some user →
        (Split (TrimSpace url) "/").get? ((Split (TrimSpace url) "/").length - 1) = some repo →
        w.runCommand "git rev-parse --abbrev-ref HEAD" = .ok branchOut →
        w.download ((preDecode user repo (TrimSpace branchOut)).Metadata.BaseURL ++
          "config.toml") = .ok text →
        w.decodeConfig text (preDecode user repo (TrimSpace branchOut)) = .ok d →
        d.Metadata.User = user → d.Metadata.Repo = repo →
        d.Metadata.BaseURL = (preDecode user repo (TrimSpace branchOut)).Metadata.BaseURL →
        w.getTree user repo (TrimSpace branchOut) = .ok paths →
        ∃ c, getConfig w = .ok c ∧ c.Metadata.User = user ∧ c.Metadata.Repo = repo ∧
          c.Metadata.BaseURL =
            "https://raw.githubusercontent.com/" ++ user ++ "/" ++ repo ++ "/" ++
              TrimSpace branchOut ++ "/") ∧
    (2 ≤ (Split (TrimSpace url) "/").length →
      ∀ c, getConfig w = .ok c →
        ∃ branchOut user repo text d,
          (Split (TrimSpace url) "/").get? ((Split (TrimSpace url) "/").length - 2) =
            some user ∧
          (Split (TrimSpace url) "/").get? ((Split (TrimSpace url) "/").length - 1) =
            some repo ∧
          w.runCommand "git rev-parse --abbrev-ref HEAD" = .ok branchOut ∧
          w.download ((preDecode user repo (TrimSpace branchOut)).Metadata.BaseURL ++
            "config.toml") = .ok text ∧
          w.decodeConfig text (preDecode user repo (TrimSpace branchOut)) = .ok d ∧
          (d.Metadata.User = user → d.Metadata.Repo = repo →
            d.Metadata.BaseURL = (preDecode user repo (TrimSpace branchOut)).Metadata.BaseURL →
            c.Metadata.User = user ∧ c.Metadata.Repo = repo ∧
            c.Metadata.BaseURL =
              "https://raw.githubusercontent.com/" ++ user ++ "/" ++ repo ++ "/" ++
                TrimSpace branchOut ++ "/")) ∧
    ((Split (TrimSpace url) "/").length < 2 → ∃ e, getConfig w = .error e) := by
  refine ⟨?_, ?_, ?_⟩
  · intro hlen branchOut user repo text d paths g2 g3 h4 h5 h6 mU mR mB h7
    have c2 : (((Split (TrimSpace url) "/").length : Int) - 2) =
        (((Split (TrimSpace url) "/").length - 2 : Nat) : Int) := by omega
    have c3 : (((Split (TrimSpace url) "/").length : Int) - 1) =
        (((Split (TrimSpace url) "/").length - 1 : Nat) : Int) := by omega
    have h2 := index_of_get? _ _ _ g2
    have h3 := index_of_get? _ _ _ g3
    rw [← c2] at h2
    rw [← c3] at h3
    rw [← mU, ← mR] at h7
    refine ⟨postDecode d paths,
      getConfig_ok w url branchOut user repo text d paths hurl h2 h3 h4 h5 h6 h7, ?_, ?_, ?_⟩
    · simp only [postDecode, mU]
    · simp only [postDecode, mR]
    · simp only [postDecode, mB, preDecode]
  · intro hlen c h
    obtain ⟨url', branchOut, user, repo, text, d, paths, h1, h2, h3, h4, h5, h6, -, hc⟩ :=
      getConfig_inv w c h
    have hu : url' = url := by
      rw [h1] at hurl
      injection hurl
    subst hu
    obtain ⟨-, -, g2⟩ := index_ok _ _ _ h2
    obtain ⟨-, -, g3⟩ := index_ok _ _ _ h3
    have e2 : (((Split (TrimSpace url') "/").length : Int) - 2).toNat =
        (Split (TrimSpace url') "/").length - 2 := by omega
    have e3 : (((Split (TrimSpace url') "/").length : Int) - 1).toNat =
        (Split (TrimSpace url') "/").length - 1 := by omega
    rw [e2] at g2
    rw [e3] at g3
    subst hc
    refine ⟨branchOut, user, repo, text, d, g2, g3, h4, h5, h6, ?_⟩
    intro mU mR mB
    refine ⟨?_, ?_, ?_⟩
    · simp only [postDecode, mU]
    · simp only [postDecode, mR]
    · simp only [postDecode, mB, preDecode]
  · intro hlen
    refine ⟨"index out of range", ?_⟩
    have he := index_error (Split (TrimSpace url) "/")
      (((Split (TrimSpace url) "/").length : Int) - 2) (by omega)
    simp only [getConfig, bind, Except.bind, hurl, he]

theorem getConfig_metadata_witness :
    (∃ c, getConfig hostMixed = .ok c ∧ c.Metadata.User = "u" ∧ c.Metadata.Repo = "dots" ∧
      c.Metadata.BaseURL =
        "https://raw.githubusercontent.com/" ++ "u" ++ "/" ++ "dots" ++ "/" ++
          TrimSpace "main\n" ++ "/") ∧
    ∃ e, getConfig hostNoSlash = .error e :=
  ⟨(getConfig_metadata hostMixed "https://github.com/u/dots\n" rfl).1 (by decide)
      "main\n" "u" "dots" "tmp_dir = \"/tmp/@repo_name\""
      { preDecode "u" "dots" "main" with TmpDir := "/tmp/@repo_name" } ["install.sh"]
      (by decide) (by decide) rfl rfl rfl rfl rfl rfl rfl,
   (getConfig_metadata hostNoSlash "dots\n" rfl).2.2 (by decide)⟩

/-- An ssh remote has its host and user in one segment and keeps the `.git`
suffix: `git@github.com:u/dots.git` gives the user `git@github.com:u` and the
repository `dots.git`. -/
theorem getConfig_ssh_remote :
    getConfig hostSsh =
      .ok { InstallURL :=
              "https://raw.githubusercontent.com/git@github.com:u/dots.git/main/install.sh"
            Metadata :=
              { User := "git@github.com:u"
                Repo := "dots.git"
                BaseURL := "https://raw.githubusercontent.com/git@github.com:u/dots.git/main/"
                GitPaths := [] } } := by
  rfl

/-- C7, as stated, fails: with the repository `name` and the decoded `tmp_dir`
value `/tmp/@repo_@repo_name`, the one pass of `strings.ReplaceAll` leaves
`/tmp/@repo_name`, which contains the placeholder. -/
theorem getConfig_tmpDir_counterexample :
    hostWithout.decodeConfig "" (preDecode "u" "name" "main") =
      .ok { preDecode "u" "name" "main" with TmpDir := "/tmp/@repo_@repo_name" } ∧
    getConfig hostWithout =
      .ok { TmpDir := "/tmp/@repo_name"
            InstallURL := "https://raw.githubusercontent.com/u/name/main/install.sh"
            Metadata :=
              { User := "u"
                Repo := "name"
                BaseURL := "https://raw.githubusercontent.com/u/name/main/"
                GitPaths := ["install.sh"] } } ∧
    Contains "/tmp/@repo_name" "@repo_name" = true := by
  refine ⟨rfl, rfl, ?_⟩
  decide

/-- C7, amended: whenever `getConfig` returns, the `tmpDir` of the
configuration is `strings.ReplaceAll` of the decoded value, the placeholder
`@repo_name` and the repository name (occurrences taken left to right, without
overlap, in one pass); it contains no `@repo_name` when the repository name
contains no `@` and every `@` of the decoded value begins an occurrence of the
placeholder. -/
theorem getConfig_tmpDir (w : world) (c : config) (h : getConfig w = .ok c) :
    ∃ user repo branch text d,
      w.download ((preDecode user repo branch).Metadata.BaseURL ++ "config.toml") = .ok text ∧
      w.decodeConfig text (preDecode user repo branch) = .ok d ∧
      c.TmpDir = ReplaceAll d.TmpDir "@repo_name" c.Metadata.Repo ∧
      ('@' ∉ c.Metadata.Repo.toList → atStartsPlaceholder d.TmpDir = true →
        Contains c.TmpDir "@repo_name" = false) := by
  obtain ⟨url, branchOut, user, repo, text, d, paths, -, -, -, -, h5, h6, -, hc⟩ :=
    getConfig_inv w c h
  subst hc
  refine ⟨user, repo, TrimSpace branchOut, text, d, h5, h6, rfl, ?_⟩
  intro hrepo hs
  exact ReplaceAll_no_placeholder d.TmpDir d.Metadata.Repo hrepo hs

theorem getConfig_tmpDir_witness : Contains "/tmp/dots" "@repo_name" = false := by
  obtain ⟨user, repo, branch, text, d, -, h6, -, h8⟩ :=
    getConfig_tmpDir hostBare
      { TmpDir := "/tmp/dots"
        InstallURL := "https://raw.githubusercontent.com/u/dots/main/install.sh"
        Metadata :=
          { User := "u"
            Repo := "dots"
            BaseURL := "https://raw.githubusercontent.com/u/dots/main/"
            GitPaths := ["install.sh"] } } rfl
  have hd : d.TmpDir = "/tmp/@repo_name" := by
    cases h6
    rfl
  exact h8 (by decide) (by rw [hd]; decide)

/-! ## Lemmas on the flattening of the sync targets -/

theorem GoMap.get?_set_self {V : Type} (m : GoMap V) (k : String) (v : V) :
    (m.set k v).get? k = some v := by
  induction m with
  | nil => simp [GoMap.set, GoMap.get?]
  | cons e rest ih =>
    obtain ⟨k', v'⟩ := e
    by_cases hk : k' = k
    · simp [GoMap.set, GoMap.get?, hk]
    · simp [GoMap.set, GoMap.get?, hk, ih]

theorem GoMap.get?_set_ne {V : Type} (m : GoMap V) (k j : String) (v : V) (hj : j ≠ k) :
    (m.set k v).get? j = m.get? j := by
  induction m with
  | nil => simp [GoMap.set, GoMap.get?, Ne.symm hj]
  | cons e rest ih =>
    obtain ⟨k', v'⟩ := e
    by_cases hk : k' = k
    · subst hk
      simp [GoMap.set, GoMap.get?, Ne.symm hj]
    · by_cases hkj : k' = j
      · subst hkj
        simp [GoMap.set, GoMap.get?, hk]
      · simp [GoMap.set, GoMap.get?, hk, hkj, ih]

theorem GoMap.length_set_absent {V : Type} (m : GoMap V) (k : String) (v : V)
    (h : m.get? k = none) : (m.set k v).length = m.length + 1 := by
  induction m with
  | nil => simp [GoMap.set]
  | cons e rest ih =>
    obtain ⟨k', v'⟩ := e
    by_cases hk : k' = k
    · simp [GoMap.get?, hk] at h
    · simp only [GoMap.get?, if_neg hk] at h
      simp [GoMap.set, hk, ih h]

theorem syncGroup_append (acc : GoMap String) (a b : List Target) :
    syncGroup acc (a ++ b) = syncGroup (syncGroup acc a) b := by
  induction a generalizing acc with
  | nil => rfl
  | cons t rest ih =>
    show syncGroup (acc.set t.RepoPath t.LocalPath) (rest ++ b) = _
    rw [ih]
    rfl

theorem syncGroups_eq_syncGroup (acc : GoMap String) (groups : GoMap targetClass) :
    syncGroups acc groups = syncGroup acc (allTargets groups) := by
  induction groups generalizing acc with
  | nil => rfl
  | cons g rest ih =>
    obtain ⟨n, s⟩ := g
    simp only [syncGroups, ih, allTargets, List.flatMap_cons, syncGroup_append]

theorem syncGroup_distinct (ts : List Target) :
    ∀ acc : GoMap String, (ts.map Target.RepoPath).Nodup →
      (∀ t ∈ ts, acc.get? t.RepoPath = none) →
      (syncGroup acc ts).length = acc.length + ts.length ∧
      (∀ t ∈ ts, (syncGroup acc ts).get? t.RepoPath = some t.LocalPath) ∧
      (∀ k, k ∉ ts.map Target.RepoPath → (syncGroup acc ts).get? k = acc.get? k) := by
  induction ts with
  | nil => intro acc _ _; simp [syncGroup]
  | cons t rest ih =>
    intro acc hnd habs
    rw [List.map_cons, List.nodup_cons] at hnd
    obtain ⟨hnotin, hnd'⟩ := hnd
    have hne : ∀ u ∈ rest, u.RepoPath ≠ t.RepoPath := by
      intro u hu he
      exact hnotin (he ▸ List.mem_map_of_mem Target.RepoPath hu)
    have habs' : ∀ u ∈ rest, (acc.set t.RepoPath t.LocalPath).get? u.RepoPath = none := by
      intro u hu
      rw [GoMap.get?_set_ne _ _ _ _ (hne u hu)]
      exact habs u (List.mem_cons_of_mem _ hu)
    obtain ⟨h1, h2, h3⟩ := ih (acc.set t.RepoPath t.LocalPath) hnd' habs'
    have hlen := GoMap.length_set_absent acc t.RepoPath t.LocalPath
      (habs t (List.mem_cons_self _ _))
    refine ⟨?_, ?_, ?_⟩
    · simp only [syncGroup, h1, hlen, List.length_cons]
      omega
    · intro u hu
      simp only [syncGroup]
      rcases List.mem_cons.mp hu with he | hm
      · subst he
        rw [h3 _ hnotin, GoMap.get?_set_self]
      · exact h2 u hm
    · intro k hk
      simp only [List.map_cons, List.mem_cons, not_or] at hk
      simp only [syncGroup]
      rw [h3 k hk.2, GoMap.get?_set_ne _ _ _ _ hk.1]

/-- The flattening itself is as described, for the process-wide `Config`: with
pairwise distinct repository paths the mapping has one entry per target, keyed
by `RepoPath` and valued by `LocalPath`, and nothing else. -/
theorem SyncTargets_flatten (Config c : config)
    (hnd : ((allTargets Config.Sync).map Target.RepoPath).Nodup) :
    (SyncTargets Config c).length = (allTargets Config.Sync).length ∧
    (∀ t ∈ allTargets Config.Sync, (SyncTargets Config c).get? t.RepoPath = some t.LocalPath) ∧
    (∀ k, k ∉ (allTargets Config.Sync).map Target.RepoPath →
      (SyncTargets Config c).get? k = none) := by
  have h := syncGroup_distinct (allTargets Config.Sync) [] hnd (fun _ _ => rfl)
  simp only [SyncTargets, syncGroups_eq_syncGroup]
  refine ⟨by simpa using h.1, h.2.1, ?_⟩
  intro k hk
  rw [h.2.2 k hk]
  rfl

/-- C6 fails on the code: `SyncTargets` ranges over the process-wide `Config`,
not over its receiver. Called on a configuration with two groups of two
targets while `Config` has no sync group, it returns the empty mapping, not a
mapping of four entries; called with `Config` equal to the receiver it
returns the four entries. -/
theorem SyncTargets_ignores_receiver :
    (allTargets twoByTwo.Sync).length = 4 ∧
    ((allTargets twoByTwo.Sync).map Target.RepoPath).Nodup ∧
    SyncTargets {} twoByTwo = [] ∧
    SyncTargets twoByTwo twoByTwo =
      [("zshrc", "~/.zshrc"), ("bashrc", "~/.bashrc"), ("vimrc", "~/.vimrc"),
       ("init.lua", "~/.config/nvim/init.lua")] := by
  refine ⟨by decide, by decide, by decide, by decide⟩

end Helpers
